import Mathlib

/-!
Verification of the pattern-IR transformation layer of yara-x
(`src/yara-x/src/compiler/ir/utils.rs`): the masked-byte ⇄ byte-class
converter (`hex_byte_to_class` / `class_to_hex_byte`), the `any_byte`
wildcard predicate, and the gap-splitting analyzer `split_at_large_gaps`.

Machine integers are embedded as `Nat`; every u8 value handled by the code
is `< 256`, and the u8 bitwise complement `!x` is embedded as `255 ^^^ x`.
The `u32` constant `u32::MAX` is the literal `4294967295`.
-/

/-- Masked byte, from `yara_x_parser::ast::HexByte` (the crate is outside the
provided sources; the structure is taken from the spec's data model: two
unsigned 8-bit fields `value` and `mask`). -/
structure HexByte where
  value : Nat
  mask : Nat
  deriving Repr, DecidableEq

/-- An inclusive range of bytes, mirroring `regex_syntax::hir::ClassBytesRange`
with fields `start`/`end` (the Rust accessor `end()` is the reserved word
`end` in Lean, so the field is called `stop` here). -/
structure ClassBytesRange where
  start : Nat
  stop : Nat
  deriving Repr, DecidableEq

/-- An inclusive range of character code points, mirroring
`regex_syntax::hir::ClassUnicodeRange`. -/
structure ClassUnicodeRange where
  start : Nat
  stop : Nat
  deriving Repr, DecidableEq

/-- Number of set bits of a `u8`, as in Rust `u8::count_ones` (a u8 has
exactly the bit positions `0..8`). -/
def count_ones (n : Nat) : Nat :=
  ((List.range 8).filter (fun i => n.testBit i)).length

/-- Translation of `class_to_hex_byte` from `compiler/ir/utils.rs`. The
class is its (sorted) list of byte ranges. `smallest_byte` is the start of
the first range and `largest_byte` the end of the last range; `!neg_mask`
(u8 complement) is embedded as `255 ^^^ neg_mask`. -/
def class_to_hex_byte (c : List ClassBytesRange) : Option HexByte :=
  match c with
  | [] => none
  | first :: rest =>
    let smallest_byte := first.start
    let largest_byte := ((first :: rest).getLast (List.cons_ne_nil first rest)).stop
    let neg_mask := largest_byte ^^^ smallest_byte
    if largest_byte &&& smallest_byte != smallest_byte then
      none
    else
      let num_bytes := (first :: rest).foldl (fun acc r => acc + (r.stop - r.start) + 1) 0
      if (1 <<< count_ones neg_mask) != num_bytes then
        none
      else
        some { value := smallest_byte, mask := 255 ^^^ neg_mask }

/-- Modelled from the spec: the byte-mask enumeration helper
(`crate::compiler::ByteMaskCombinator`, whose source is not among the
provided files) yields exactly the bytes `b` with `b &&& mask == value`,
each exactly once; here they are produced in ascending order. -/
def byteMaskCombinator (value mask : Nat) : List Nat :=
  (List.range 256).filter (fun b => b &&& mask == value)

/-- One canonicalizing insertion: prepend byte `b` to an already-canonical
range list whose ranges all start after `b`, merging when adjacent. -/
def push_front (b : Nat) : List ClassBytesRange → List ClassBytesRange
  | [] => [⟨b, b⟩]
  | r :: rs => if b + 1 = r.start then ⟨b, r.stop⟩ :: rs else ⟨b, b⟩ :: r :: rs

/-- Modelled from the spec: building a `ClassBytes` by pushing one singleton
range per byte (`regex_syntax::hir::ClassBytes::push`, an external crate);
the container keeps the range set canonical, merging adjacent singleton
ranges into contiguous ranges. -/
def class_from_bytes : List Nat → List ClassBytesRange
  | [] => []
  | b :: rest => push_front b (class_from_bytes rest)

/-- Translation of `hex_byte_to_class` from `compiler/ir/utils.rs`. The Rust
function starts with `assert_eq!(b.value & !b.mask, 0)`; the panic of a
failed assertion is embedded as `none`. -/
def hex_byte_to_class (b : HexByte) : Option (List ClassBytesRange) :=
  if b.value &&& (255 ^^^ b.mask) != 0 then
    none
  else
    some (class_from_bytes (byteMaskCombinator b.value b.mask))

/-- Membership of a byte in a byte-range class: some range covers it. -/
def class_member (c : List ClassBytesRange) (x : Nat) : Bool :=
  c.any (fun r => decide (r.start ≤ x) && decide (x ≤ r.stop))

/-- Total size of a byte-range class (number of bytes, counted per range as
`stop - start + 1`). -/
def size_sum : List ClassBytesRange → Nat
  | [] => 0
  | r :: rs => (r.stop - r.start + 1) + size_sum rs

/-- All submasks of `nm` below 256, in ascending order. -/
def submasks (nm : Nat) : List Nat :=
  (List.range 256).filter (fun x => x &&& nm == x)

/-- The regex IR, mirroring `regex_syntax::hir::HirKind` (an external crate;
shape taken from the spec's data model in §3). The `Hir` properties cache of
the crate is derived data and is omitted; `cat` is the raw `Concat` node,
`look`/`alternation` stand for the remaining node kinds that the analyzed
functions treat as opaque. Literal bytes, repetition `min`/`max` (u32) and
class bounds are `Nat`. -/
inductive Hir where
  | empty : Hir
  | literal : List Nat → Hir
  | classBytes : List ClassBytesRange → Hir
  | classUnicode : List ClassUnicodeRange → Hir
  | look : Nat → Hir
  | repetition : Nat → Option Nat → Bool → Hir → Hir
  | cat : List Hir → Hir
  | alternation : List Hir → Hir

/-- Rust `char::MAX` as a code point. -/
def char_MAX : Nat := 1114111

/-- Translation of `any_byte` from `compiler/ir/utils.rs`: true iff the node
is a class whose first range spans the full domain (`0..=255` for byte
classes, `0 as char ..= char::MAX` for Unicode classes). -/
def any_byte : Hir → Bool
  | Hir.classBytes ranges =>
    match ranges.head? with
    | some range => range.start == 0 && range.stop == 255
    | none => false
  | Hir.classUnicode ranges =>
    match ranges.head? with
    | some range => range.start == 0 && range.stop == char_MAX
    | none => false
  | _ => false

/-- Helper of `Hir.concat`: append one (non-empty, non-concatenation) node,
gluing it onto a trailing literal if both are literals. -/
def pushHir (acc : List Hir) (item : Hir) : List Hir :=
  match acc.getLast?, item with
  | some (Hir.literal xs), Hir.literal ys => acc.dropLast ++ [Hir.literal (xs ++ ys)]
  | _, _ => acc ++ [item]

/-- The per-child action of `Hir.concat`: skip empty nodes, splice the
children of a nested concatenation, push anything else. -/
def concat_push (acc : List Hir) (sub : Hir) : List Hir :=
  match sub with
  | Hir.empty => acc
  | Hir.cat subs2 => subs2.foldl pushHir acc
  | s => pushHir acc s

/-- Modelled from the spec: the smart constructor `Hir::concat` of the
external `regex_syntax` crate. It drops empty sub-expressions, flattens
nested concatenations, glues adjacent literals, and collapses the result:
no element yields the empty node, a single element yields that element. -/
def Hir.concat (subs : List Hir) : Hir :=
  match subs.foldl concat_push [] with
  | [] => Hir.empty
  | [x] => x
  | xs => Hir.cat xs

/-- Threshold from `compiler/ir/utils.rs` (`PATTERN_CHAINING_THRESHOLD`). -/
def PATTERN_CHAINING_THRESHOLD : Nat := 200

/-- Rust `u32::MAX`. -/
def U32_MAX : Nat := 4294967295

/-- A trailing piece of a split pattern (`TrailingPattern` in the source):
the inclusive gap range `(min, max)` and the piece's IR. -/
structure TrailingPattern where
  gap : Nat × Nat
  hir : Hir

/-- The local mutable state of `split_at_large_gaps`: the `heading` and
`trailing` outputs and the `prev_gap` / `pattern_chunk` loop variables. -/
structure SplitState where
  heading : Option Hir
  trailing : List TrailingPattern
  prev_gap : Option (Nat × Nat)
  pattern_chunk : List Hir

/-- The `push` closure of `split_at_large_gaps`: a fragment closed by a gap
becomes a trailing pattern, the gap-less (first) fragment becomes the
heading. -/
def split_push (st : SplitState) (gap : Option (Nat × Nat)) (fragment : List Hir) : SplitState :=
  match gap with
  | some g => { st with trailing := st.trailing ++ [⟨g, Hir.concat fragment⟩] }
  | none => { st with heading := some (Hir.concat fragment) }

/-- One iteration of the loop of `split_at_large_gaps` over the children of
the top-level concatenation. -/
def split_step (st : SplitState) (item : Hir) : SplitState :=
  match item with
  | Hir.repetition rmin rmax greedy sub =>
    let max_gap := rmax.getD U32_MAX - rmin
    if decide (PATTERN_CHAINING_THRESHOLD < max_gap) && !greedy && any_byte sub then
      let st1 := split_push st st.prev_gap st.pattern_chunk
      { st1 with prev_gap := some (rmin, rmax.getD U32_MAX), pattern_chunk := [] }
    else
      { st with pattern_chunk := st.pattern_chunk ++ [Hir.repetition rmin rmax greedy sub] }
  | item => { st with pattern_chunk := st.pattern_chunk ++ [item] }

/-- Translation of `split_at_large_gaps` from `compiler/ir/utils.rs`. The
Rust code ends with `heading.unwrap()`; the would-be panic of `unwrap` on
`None` is embedded as `none`, so totality of the Rust function is the claim
that this function never returns `none`. -/
def split_at_large_gaps (hir : Hir) : Option (Hir × List TrailingPattern) :=
  match hir with
  | Hir.cat items =>
    let st := items.foldl split_step ⟨none, [], none, []⟩
    let st1 := split_push st st.prev_gap st.pattern_chunk
    match st1.heading with
    | some heading => some (heading, st1.trailing)
    | none => none
  | hir => some (hir, [])

/-- The gap condition of `split_at_large_gaps` as a standalone predicate: a
non-greedy full-wildcard repetition whose width `max.unwrap_or(u32::MAX) -
min` strictly exceeds the chaining threshold. -/
def is_gap_child : Hir → Bool
  | Hir.repetition rmin rmax greedy sub =>
    decide (PATTERN_CHAINING_THRESHOLD < rmax.getD U32_MAX - rmin) && !greedy && any_byte sub
  | _ => false

/-- Is the node a literal node? -/
def is_lit : Hir → Bool
  | Hir.literal _ => true
  | _ => false

/-- Is the node a raw concatenation node? -/
def is_cat : Hir → Bool
  | Hir.cat _ => true
  | _ => false

/-- Is the node the empty expression? -/
def is_empty_hir : Hir → Bool
  | Hir.empty => true
  | _ => false

/-- No two adjacent elements are both literal nodes. -/
def chain_not_both_lits : List Hir → Bool
  | [] => true
  | [_] => true
  | a :: b :: rest => !(is_lit a && is_lit b) && chain_not_both_lits (b :: rest)

/-- The invariant that the smart constructor `Hir::concat` of `regex_syntax`
guarantees for every `Concat` node it builds (and the only way the crate
lets a `Concat` node be built): at least two children, no child is the empty
node or a nested concatenation, and no two adjacent children are literals
(they would have been glued). -/
def concat_invariant (items : List Hir) : Bool :=
  decide (2 ≤ items.length) &&
  items.all (fun x => !is_empty_hir x && !is_cat x) &&
  chain_not_both_lits items

/-- The top-level `regex_syntax` structural invariant of an `Hir` value. -/
def hir_invariant : Hir → Bool
  | Hir.cat items => concat_invariant items
  | _ => true

/-- No child of a top-level concatenation qualifies as a large gap (trivially
true for non-concatenation nodes). -/
def no_gap_child : Hir → Bool
  | Hir.cat items => items.all (fun x => !is_gap_child x)
  | _ => true

/-- Bits at positions `≥ 8` of a byte are clear. -/
theorem testBit_high {x i : Nat} (hx : x < 256) (hi : 8 ≤ i) : x.testBit i = false := by
  have h2 : (256 : Nat) ≤ 2 ^ i := by
    calc (256 : Nat) = 2 ^ 8 := by norm_num
    _ ≤ 2 ^ i := Nat.pow_le_pow_right (by norm_num) hi
  exact Nat.testBit_eq_false_of_lt (lt_of_lt_of_le hx h2)

/-- Bits of the u8 full mask `255`. -/
theorem testBit_255 (i : Nat) : (255 : Nat).testBit i = decide (i < 8) := by
  rw [show (255 : Nat) = 2 ^ 8 - 1 by norm_num, Nat.testBit_two_pow_sub_one]

/-- Conjunction distributes over disjunction, bitwise. -/
theorem nat_or_and_distrib (a b c : Nat) :
    (a ||| b) &&& c = (a &&& c) ||| (b &&& c) := by
  apply Nat.eq_of_testBit_eq
  intro i
  rw [Nat.testBit_land, Nat.testBit_lor, Nat.testBit_lor, Nat.testBit_land, Nat.testBit_land]
  cases a.testBit i <;> cases b.testBit i <;> cases c.testBit i <;> rfl

/-- Conjunction distributes over disjunction, bitwise (left form). -/
theorem nat_and_or_distrib (a b c : Nat) :
    a &&& (b ||| c) = (a &&& b) ||| (a &&& c) := by
  apply Nat.eq_of_testBit_eq
  intro i
  rw [Nat.testBit_land, Nat.testBit_lor, Nat.testBit_lor, Nat.testBit_land, Nat.testBit_land]
  cases a.testBit i <;> cases b.testBit i <;> cases c.testBit i <;> rfl

/-- Absorption: `(a ||| b) &&& a = a`. -/
theorem nat_or_and_absorb (a b : Nat) : (a ||| b) &&& a = a := by
  apply Nat.eq_of_testBit_eq
  intro i
  rw [Nat.testBit_land, Nat.testBit_lor]
  cases a.testBit i <;> cases b.testBit i <;> rfl

/-- A number is bounded by its disjunction with anything. -/
theorem nat_le_or (a b : Nat) : a ≤ a ||| b := by
  have h := Nat.and_le_left (n := a ||| b) (m := a)
  rwa [nat_or_and_absorb] at h

/-- Monotonicity of disjunction in a submask argument. -/
theorem nat_or_le_or_of_submask {a b c : Nat} (h : b &&& c = b) : a ||| b ≤ a ||| c := by
  have hb : ∀ i, b.testBit i = (b.testBit i && c.testBit i) := fun i => by
    conv_lhs => rw [← h]
    rw [Nat.testBit_land]
  have habs : (a ||| b) ||| (a ||| c) = a ||| c := by
    apply Nat.eq_of_testBit_eq
    intro i
    rw [Nat.testBit_lor, Nat.testBit_lor, Nat.testBit_lor]
    have := hb i
    cases ha : a.testBit i <;> cases hc : c.testBit i <;> cases hbi : b.testBit i <;>
      simp_all
  have := nat_le_or (a ||| b) (a ||| c)
  rwa [habs] at this

/-- Cancelling a disjoint disjunct with xor. -/
theorem nat_disjoint_or_xor {a b : Nat} (h : a &&& b = 0) : (a ||| b) ^^^ a = b := by
  have hd : ∀ i, (a.testBit i && b.testBit i) = false := fun i => by
    rw [← Nat.testBit_land, h, Nat.zero_testBit]
  apply Nat.eq_of_testBit_eq
  intro i
  rw [Nat.testBit_xor, Nat.testBit_lor]
  have := hd i
  cases ha : a.testBit i <;> cases hbi : b.testBit i <;> simp_all

/-- A submask is disjoint from the difference: `l &&& s = s → s &&& (l ^^^ s) = 0`. -/
theorem nat_submask_and_xor {l s : Nat} (h : l &&& s = s) : s &&& (l ^^^ s) = 0 := by
  have hb : ∀ i, (l.testBit i && s.testBit i) = s.testBit i := fun i => by
    rw [← Nat.testBit_land, h]
  apply Nat.eq_of_testBit_eq
  intro i
  rw [Nat.testBit_land, Nat.testBit_xor, Nat.zero_testBit]
  have := hb i
  cases hl : l.testBit i <;> cases hs : s.testBit i <;> simp_all

/-- Conjunction with the full u8 mask is the identity on bytes. -/
theorem nat_and_255 {x : Nat} (hx : x < 256) : x &&& 255 = x := by
  apply Nat.eq_of_testBit_eq
  intro i
  rw [Nat.testBit_land, testBit_255]
  rcases lt_or_ge i 8 with h8 | h8
  · simp [h8]
  · simp [testBit_high hx h8, Nat.not_lt.mpr h8]

/-- A byte mask and its u8 complement cover all eight bits. -/
theorem nat_or_not8 {m : Nat} (hm : m < 256) : m ||| (255 ^^^ m) = 255 := by
  apply Nat.eq_of_testBit_eq
  intro i
  rw [Nat.testBit_lor, Nat.testBit_xor, testBit_255]
  rcases lt_or_ge i 8 with h8 | h8
  · rw [decide_eq_true h8]
    cases m.testBit i <;> rfl
  · simp [testBit_high hm h8, Nat.not_lt.mpr h8]

/-- A byte mask and its u8 complement are disjoint. -/
theorem nat_not8_and {m : Nat} (hm : m < 256) : (255 ^^^ m) &&& m = 0 := by
  apply Nat.eq_of_testBit_eq
  intro i
  rw [Nat.testBit_land, Nat.testBit_xor, testBit_255, Nat.zero_testBit]
  rcases lt_or_ge i 8 with h8 | h8
  · rw [decide_eq_true h8]
    cases m.testBit i <;> rfl
  · simp [testBit_high hm h8, Nat.not_lt.mpr h8]

/-- Xor of bytes is a byte. -/
theorem nat_xor_lt_256 {x y : Nat} (hx : x < 256) (hy : y < 256) : x ^^^ y < 256 :=
  Nat.xor_lt_two_pow (n := 8) (by exact hx) (by exact hy)

/-- Disjunction of bytes is a byte. -/
theorem nat_or_lt_256 {x y : Nat} (hx : x < 256) (hy : y < 256) : x ||| y < 256 :=
  Nat.or_lt_two_pow (n := 8) (by exact hx) (by exact hy)

/-- The u8 complement is an involution. -/
theorem nat_not8_not8 (m : Nat) : 255 ^^^ (255 ^^^ m) = m := by
  rw [← Nat.xor_assoc, Nat.xor_self, Nat.zero_xor]

/-- The construction invariant `value &&& !mask = 0` forces the value's bits
into the mask: `value &&& mask = value`. -/
theorem value_and_mask {v m : Nat} (hv : v < 256) (inv : v &&& (255 ^^^ m) = 0) :
    v &&& m = v := by
  have hinv : ∀ i, (v.testBit i && (255 ^^^ m).testBit i) = false := fun i => by
    rw [← Nat.testBit_land, inv, Nat.zero_testBit]
  apply Nat.eq_of_testBit_eq
  intro i
  rw [Nat.testBit_land]
  rcases lt_or_ge i 8 with h8 | h8
  · have := hinv i
    rw [Nat.testBit_xor, testBit_255, decide_eq_true h8] at this
    cases hvi : v.testBit i <;> cases hmi : m.testBit i <;> simp_all
  · simp [testBit_high hv h8]

/-- In a strictly sorted list, a member that is a lower bound is the head. -/
theorem sorted_head_eq {l : List Nat} (hs : List.Pairwise (· < ·) l) {v : Nat}
    (hmem : v ∈ l) (hlb : ∀ b ∈ l, v ≤ b) : l.head? = some v := by
  cases l with
  | nil => cases hmem
  | cons h t =>
    rcases List.mem_cons.mp hmem with rfl | hvt
    · rfl
    · have hlt : h < v := (List.pairwise_cons.mp hs).1 v hvt
      have := hlb h (List.mem_cons_self h t)
      omega

/-- In a strictly sorted list, a member that is an upper bound is the last
element. -/
theorem sorted_last_eq {l : List Nat} (hs : List.Pairwise (· < ·) l) {v : Nat}
    (hmem : v ∈ l) (hub : ∀ b ∈ l, b ≤ v) : l.getLast? = some v := by
  induction l with
  | nil => cases hmem
  | cons h t ih =>
    cases t with
    | nil =>
      rcases List.mem_cons.mp hmem with rfl | hvt
      · rfl
      · cases hvt
    | cons t0 ts =>
      rw [List.getLast?_cons_cons]
      have hcons := List.pairwise_cons.mp hs
      rcases List.mem_cons.mp hmem with rfl | hvt
      · exfalso
        have h1 : v < t0 := hcons.1 t0 (by simp)
        have h2 : t0 ≤ v := hub t0 (by simp)
        omega
      · exact ih hcons.2 hvt (fun b hb => hub b (List.mem_cons_of_mem _ hb))

/-- Unfolding equation of `class_from_bytes` on a non-empty byte list. -/
theorem class_from_bytes_cons (b : Nat) (rest : List Nat) :
    class_from_bytes (b :: rest) = push_front b (class_from_bytes rest) := rfl

/-- The class built from a non-empty byte list starts at its first byte. -/
theorem class_from_bytes_head (b : Nat) (rest : List Nat) :
    ∃ e tl, class_from_bytes (b :: rest) = ⟨b, e⟩ :: tl := by
  rw [class_from_bytes_cons]
  rcases hrec : class_from_bytes rest with _ | ⟨r, rs⟩
  · exact ⟨b, [], rfl⟩
  · by_cases hb : b + 1 = r.start
    · exact ⟨r.stop, rs, by rw [push_front, if_pos hb]⟩
    · exact ⟨b, r :: rs, by rw [push_front, if_neg hb]⟩

/-- Every range produced by `class_from_bytes` is well-formed. -/
theorem class_from_bytes_valid :
    ∀ bs : List Nat, ∀ r ∈ class_from_bytes bs, r.start ≤ r.stop := by
  intro bs
  induction bs with
  | nil =>
    intro r hr
    simp [class_from_bytes] at hr
  | cons b rest ih =>
    intro r hr
    rw [class_from_bytes_cons] at hr
    rcases hrec : class_from_bytes rest with _ | ⟨r0, rs⟩ <;> rw [hrec] at hr
    · simp [push_front] at hr
      simp [hr]
    · have hval0 : r0.start ≤ r0.stop := ih r0 (by rw [hrec]; exact List.mem_cons_self _ _)
      by_cases hb : b + 1 = r0.start
      · rw [push_front, if_pos hb] at hr
        rcases List.mem_cons.mp hr with rfl | hmem
        · simp only []
          omega
        · exact ih r (by rw [hrec]; exact List.mem_cons_of_mem _ hmem)
      · rw [push_front, if_neg hb] at hr
        rcases List.mem_cons.mp hr with rfl | hmem
        · simp
        · exact ih r (by rw [hrec]; exact hmem)

/-- The fold of `class_to_hex_byte` computes `size_sum`. -/
theorem foldl_sizes (c : List ClassBytesRange) : ∀ a : Nat,
    c.foldl (fun acc r => acc + (r.stop - r.start) + 1) a = a + size_sum c := by
  induction c with
  | nil => intro a; simp [size_sum]
  | cons r rs ih =>
    intro a
    rw [List.foldl_cons, ih, size_sum]
    omega

/-- The class built from a byte list has exactly as many bytes as the list
has entries. -/
theorem class_from_bytes_size :
    ∀ bs : List Nat, size_sum (class_from_bytes bs) = bs.length := by
  intro bs
  induction bs with
  | nil => rfl
  | cons b rest ih =>
    rw [class_from_bytes_cons]
    rcases hrec : class_from_bytes rest with _ | ⟨r0, rs⟩
    · cases rest with
      | nil => simp [push_front, size_sum]
      | cons b2 r2 =>
        obtain ⟨e, tl, h⟩ := class_from_bytes_head b2 r2
        rw [h] at hrec
        cases hrec
    · have hval0 : r0.start ≤ r0.stop :=
        class_from_bytes_valid rest r0 (by rw [hrec]; exact List.mem_cons_self _ _)
      rw [hrec] at ih
      by_cases hb : b + 1 = r0.start
      · rw [push_front, if_pos hb]
        simp only [size_sum] at ih ⊢
        simp only [List.length_cons]
        omega
      · rw [push_front, if_neg hb]
        simp only [size_sum] at ih ⊢
        simp only [List.length_cons]
        omega

/-- The class built from a non-empty byte list ends at its last byte. -/
theorem class_from_bytes_last :
    ∀ bs : List Nat, bs ≠ [] →
      ∃ r : ClassBytesRange,
        (class_from_bytes bs).getLast? = some r ∧ bs.getLast? = some r.stop := by
  intro bs
  induction bs with
  | nil => intro h; exact absurd rfl h
  | cons b rest ih =>
    intro _
    rcases hrest : rest with _ | ⟨b2, rest2⟩
    · exact ⟨⟨b, b⟩, by simp [class_from_bytes, push_front], by simp⟩
    · subst hrest
      obtain ⟨r0, hlast0, hstop0⟩ := ih (by simp)
      obtain ⟨e, tl, hhead⟩ := class_from_bytes_head b2 rest2
      rw [class_from_bytes_cons, hhead]
      rw [hhead] at hlast0
      by_cases hb : b + 1 = (⟨b2, e⟩ : ClassBytesRange).start
      · rw [push_front, if_pos hb]
        cases tl with
        | nil =>
          simp only [List.getLast?_singleton, Option.some.injEq] at hlast0
          refine ⟨⟨b, e⟩, by simp, ?_⟩
          rw [List.getLast?_cons_cons, hstop0, ← hlast0]
        | cons t ts =>
          refine ⟨r0, ?_, ?_⟩
          · rw [List.getLast?_cons_cons]
            rw [List.getLast?_cons_cons] at hlast0
            exact hlast0
          · rw [List.getLast?_cons_cons]
            exact hstop0
      · rw [push_front, if_neg hb]
        refine ⟨r0, ?_, ?_⟩
        · rw [List.getLast?_cons_cons]
          exact hlast0
        · rw [List.getLast?_cons_cons]
          exact hstop0

/-- A byte is covered by the class built from a byte list iff it occurs in
the list. -/
theorem class_from_bytes_mem :
    ∀ (bs : List Nat) (x : Nat), class_member (class_from_bytes bs) x = true ↔ x ∈ bs := by
  intro bs
  induction bs with
  | nil => intro x; simp [class_from_bytes, class_member]
  | cons b rest ih =>
    intro x
    rw [class_from_bytes_cons]
    rcases hrec : class_from_bytes rest with _ | ⟨r0, rs⟩
    · cases rest with
      | nil =>
        simp only [push_front, class_member, List.any_cons, List.any_nil, Bool.or_false,
          Bool.and_eq_true, decide_eq_true_eq, List.mem_singleton]
        omega
      | cons b2 r2 =>
        obtain ⟨e, tl, h⟩ := class_from_bytes_head b2 r2
        rw [h] at hrec
        cases hrec
    · have hval0 : r0.start ≤ r0.stop :=
        class_from_bytes_valid rest r0 (by rw [hrec]; exact List.mem_cons_self _ _)
      have ihx := ih x
      rw [hrec] at ihx
      simp only [class_member, List.any_cons, Bool.or_eq_true, Bool.and_eq_true,
        decide_eq_true_eq] at ihx
      by_cases hb : b + 1 = r0.start
      · rw [push_front, if_pos hb]
        simp only [class_member, List.any_cons, Bool.or_eq_true, Bool.and_eq_true,
          decide_eq_true_eq, List.mem_cons]
        constructor
        · rintro (⟨h1, h2⟩ | h3)
          · rcases Nat.eq_or_lt_of_le h1 with rfl | hlt
            · exact Or.inl rfl
            · exact Or.inr (ihx.mp (Or.inl ⟨by omega, h2⟩))
          · exact Or.inr (ihx.mp (Or.inr h3))
        · rintro (rfl | hx)
          · exact Or.inl ⟨le_refl _, by omega⟩
          · rcases ihx.mpr hx with ⟨h1, h2⟩ | h3
            · exact Or.inl ⟨by omega, h2⟩
            · exact Or.inr h3
      · rw [push_front, if_neg hb]
        simp only [class_member, List.any_cons, Bool.or_eq_true, Bool.and_eq_true,
          decide_eq_true_eq, List.mem_cons]
        constructor
        · rintro (⟨h1, h2⟩ | h3)
          · exact Or.inl (by omega)
          · exact Or.inr (ihx.mp h3)
        · rintro (rfl | hx)
          · exact Or.inl ⟨le_refl _, le_refl _⟩
          · exact Or.inr (ihx.mpr hx)

/-- Membership in the byte-mask enumeration. -/
theorem byteMaskCombinator_mem (v m x : Nat) :
    x ∈ byteMaskCombinator v m ↔ x < 256 ∧ x &&& m = v := by
  simp [byteMaskCombinator, List.mem_filter, List.mem_range, and_comm]

/-- The byte-mask enumeration is strictly ascending. -/
theorem byteMaskCombinator_sorted (v m : Nat) :
    List.Pairwise (· < ·) (byteMaskCombinator v m) :=
  List.Pairwise.sublist (List.filter_sublist _) (List.pairwise_lt_range 256)

/-- The byte-mask enumeration has no duplicates. -/
theorem byteMaskCombinator_nodup (v m : Nat) : (byteMaskCombinator v m).Nodup :=
  (List.nodup_range 256).filter _

/-- Membership in the submask enumeration. -/
theorem submasks_mem (nm x : Nat) : x ∈ submasks nm ↔ x < 256 ∧ x &&& nm = x := by
  simp [submasks, List.mem_filter, List.mem_range, and_comm]

/-- The submask enumeration has no duplicates. -/
theorem submasks_nodup (nm : Nat) : (submasks nm).Nodup :=
  (List.nodup_range 256).filter _

set_option maxRecDepth 10000 in
/-- Checked cardinality: for every byte mask `nm`, the number of submasks of
`nm` is `2 ^ count_ones nm` (exhaustively verified for all 256 masks). -/
theorem submasks_length_all : ((List.range 256).all fun nm =>
    (submasks nm).length == 1 <<< count_ones nm) = true := by
  decide

/-- Cardinality of the submask set of a byte mask. -/
theorem submasks_length {nm : Nat} (h : nm < 256) :
    (submasks nm).length = 1 <<< count_ones nm := by
  have := List.all_eq_true.mp submasks_length_all nm (List.mem_range.mpr h)
  exact beq_iff_eq.mp this

/-- Every byte splits into its masked part and its complementary part. -/
theorem byte_decompose {b m : Nat} (hb : b < 256) (hm : m < 256) :
    b = (b &&& m) ||| (b &&& (255 ^^^ m)) := by
  conv_lhs => rw [← nat_and_255 hb, ← nat_or_not8 hm]
  rw [nat_and_or_distrib]

/-- The bytes conforming to `value`/`mask` are exactly the translates of the
submasks of the complementary mask. -/
theorem combinator_perm {v m : Nat} (hv : v < 256) (hm : m < 256)
    (inv : v &&& (255 ^^^ m) = 0) :
    (byteMaskCombinator v m).Perm
      ((submasks (255 ^^^ m)).map (fun x => v ||| x)) := by
  have hnm256 : (255 ^^^ m) < 256 := nat_xor_lt_256 (by norm_num) hm
  have hmapnd : ((submasks (255 ^^^ m)).map (fun x => v ||| x)).Nodup := by
    refine List.Nodup.map_on ?_ (submasks_nodup _)
    intro x hx y hy hxy
    have hxs := (submasks_mem _ x).mp hx
    have hys := (submasks_mem _ y).mp hy
    have hx2 : (v ||| x) &&& (255 ^^^ m) = x := by
      rw [nat_or_and_distrib, inv, hxs.2, Nat.zero_or]
    have hy2 : (v ||| y) &&& (255 ^^^ m) = y := by
      rw [nat_or_and_distrib, inv, hys.2, Nat.zero_or]
    rw [← hx2, ← hy2, hxy]
  refine (List.perm_ext_iff_of_nodup (byteMaskCombinator_nodup v m) hmapnd).mpr ?_
  intro b
  rw [byteMaskCombinator_mem, List.mem_map]
  constructor
  · rintro ⟨hb, hbm⟩
    refine ⟨b &&& (255 ^^^ m), (submasks_mem _ _).mpr ⟨?_, ?_⟩, ?_⟩
    · exact lt_of_le_of_lt Nat.and_le_right hnm256
    · rw [Nat.and_assoc, Nat.and_self]
    · have hdec := byte_decompose hb hm
      rw [hbm] at hdec
      exact hdec.symm
  · rintro ⟨x, hx, rfl⟩
    have hxs := (submasks_mem _ x).mp hx
    refine ⟨nat_or_lt_256 hv hxs.1, ?_⟩
    rw [nat_or_and_distrib, value_and_mask hv inv]
    have hxm : x &&& m = 0 := by
      rw [← hxs.2, Nat.and_assoc, nat_not8_and hm, Nat.and_zero]
    rw [hxm, Nat.or_zero]

/-- Cardinality of the byte-mask enumeration. -/
theorem combinator_length {v m : Nat} (hv : v < 256) (hm : m < 256)
    (inv : v &&& (255 ^^^ m) = 0) :
    (byteMaskCombinator v m).length = 1 <<< count_ones (255 ^^^ m) := by
  rw [(combinator_perm hv hm inv).length_eq, List.length_map,
    submasks_length (nat_xor_lt_256 (by norm_num) hm)]

/-- The byte-mask enumeration starts at `value`. -/
theorem combinator_head {v m : Nat} (hv : v < 256)
    (inv : v &&& (255 ^^^ m) = 0) :
    (byteMaskCombinator v m).head? = some v := by
  refine sorted_head_eq (byteMaskCombinator_sorted v m)
    ((byteMaskCombinator_mem v m v).mpr ⟨hv, value_and_mask hv inv⟩) ?_
  intro b hb
  have hmem := (byteMaskCombinator_mem v m b).mp hb
  calc v = b &&& m := hmem.2.symm
  _ ≤ b := Nat.and_le_left

/-- The byte-mask enumeration ends at `value ||| !mask`. -/
theorem combinator_last {v m : Nat} (hv : v < 256) (hm : m < 256)
    (inv : v &&& (255 ^^^ m) = 0) :
    (byteMaskCombinator v m).getLast? = some (v ||| (255 ^^^ m)) := by
  have hnm256 : (255 ^^^ m) < 256 := nat_xor_lt_256 (by norm_num) hm
  refine sorted_last_eq (byteMaskCombinator_sorted v m) ?_ ?_
  · refine (byteMaskCombinator_mem v m _).mpr ⟨nat_or_lt_256 hv hnm256, ?_⟩
    rw [nat_or_and_distrib, value_and_mask hv inv, nat_not8_and hm, Nat.or_zero]
  · intro b hb
    have hmem := (byteMaskCombinator_mem v m b).mp hb
    have hdec := byte_decompose hmem.1 hm
    rw [hmem.2] at hdec
    rw [hdec]
    exact nat_or_le_or_of_submask (by rw [Nat.and_assoc, Nat.and_self])

/-- Unfolding equation of `class_to_hex_byte` on a non-empty class. -/
theorem class_to_hex_byte_cons (first : ClassBytesRange) (rest : List ClassBytesRange) :
    class_to_hex_byte (first :: rest) =
      (if ((first :: rest).getLast (List.cons_ne_nil first rest)).stop &&& first.start
            != first.start then
        none
      else if (1 <<< count_ones
            (((first :: rest).getLast (List.cons_ne_nil first rest)).stop ^^^ first.start))
            != (first :: rest).foldl (fun acc r => acc + (r.stop - r.start) + 1) 0 then
        none
      else
        some ⟨first.start,
          255 ^^^ (((first :: rest).getLast (List.cons_ne_nil first rest)).stop ^^^ first.start)⟩) :=
  rfl

/-- C1: for every masked byte `⟨v, m⟩` satisfying the construction invariant
`v &&& !m = 0`, expanding it with `hex_byte_to_class` succeeds (no assertion
failure) and classifying the resulting class with `class_to_hex_byte`
reproduces exactly the original value and mask. -/
theorem c1_round_trip (v m : Nat) (hv : v < 256) (hm : m < 256)
    (inv : v &&& (255 ^^^ m) = 0) :
    ∃ c, hex_byte_to_class ⟨v, m⟩ = some c ∧ class_to_hex_byte c = some ⟨v, m⟩ := by
  refine ⟨class_from_bytes (byteMaskCombinator v m), ?_, ?_⟩
  · simp [hex_byte_to_class, inv]
  · obtain ⟨Lt, hLt⟩ : ∃ Lt, byteMaskCombinator v m = v :: Lt := by
      have hhead := combinator_head hv inv
      cases hL : byteMaskCombinator v m with
      | nil => rw [hL] at hhead; cases hhead
      | cons a t =>
        rw [hL] at hhead
        simp only [List.head?_cons, Option.some.injEq] at hhead
        exact ⟨t, by rw [hhead]⟩
    obtain ⟨e, tl, hmerge⟩ := class_from_bytes_head v Lt
    rw [hLt, hmerge, class_to_hex_byte_cons]
    obtain ⟨rl, hrl1, hrl2⟩ := class_from_bytes_last (v :: Lt) (List.cons_ne_nil v Lt)
    rw [hmerge] at hrl1
    have hgetLast : ((⟨v, e⟩ :: tl).getLast (List.cons_ne_nil ⟨v, e⟩ tl)) = rl := by
      have h := List.getLast?_eq_getLast (⟨v, e⟩ :: tl) (List.cons_ne_nil ⟨v, e⟩ tl)
      rw [h] at hrl1
      exact Option.some.inj hrl1
    have hlast : (v :: Lt).getLast? = some (v ||| (255 ^^^ m)) := by
      rw [← hLt]
      exact combinator_last hv hm inv
    have hstop : rl.stop = v ||| (255 ^^^ m) := by
      rw [hrl2] at hlast
      exact (Option.some.injEq _ _).mp hlast
    rw [hgetLast, hstop]
    show (if (v ||| (255 ^^^ m)) &&& v != v then (none : Option HexByte)
      else if (1 <<< count_ones ((v ||| (255 ^^^ m)) ^^^ v))
          != ((⟨v, e⟩ : ClassBytesRange) :: tl).foldl
              (fun acc r => acc + (r.stop - r.start) + 1) 0 then none
      else some (⟨v, 255 ^^^ ((v ||| (255 ^^^ m)) ^^^ v)⟩ : HexByte))
      = some (⟨v, m⟩ : HexByte)
    have hsum : ((⟨v, e⟩ : ClassBytesRange) :: tl).foldl (fun acc r => acc + (r.stop - r.start) + 1) 0
        = 1 <<< count_ones (255 ^^^ m) := by
      rw [foldl_sizes, ← hmerge, class_from_bytes_size, ← hLt,
        combinator_length hv hm inv, Nat.zero_add]
    rw [nat_disjoint_or_xor inv, nat_or_and_absorb, bne_self_eq_false, hsum,
      bne_self_eq_false, nat_not8_not8]
    simp

/-- Witness for C1 at the masked byte `3?` (`value 0x30`, `mask 0xF0`). -/
theorem c1_round_trip_witness :
    (0x30 : Nat) < 256 ∧ (0xF0 : Nat) < 256 ∧ (0x30 : Nat) &&& (255 ^^^ 0xF0) = 0 ∧
    ∃ c, hex_byte_to_class ⟨0x30, 0xF0⟩ = some c ∧
      class_to_hex_byte c = some ⟨0x30, 0xF0⟩ :=
  ⟨by decide, by decide, by decide,
    c1_round_trip 0x30 0xF0 (by decide) (by decide) (by decide)⟩

/-- C8: `hex_byte_to_class` hits its assertion (embedded as `none`) exactly
when the construction invariant `value &&& !mask = 0` is violated; under the
invariant it returns a class containing exactly the bytes conforming to the
unmodified value and mask. -/
theorem c8_expansion_fail_fast (v m : Nat) :
    (hex_byte_to_class ⟨v, m⟩ = none ↔ ¬ (v &&& (255 ^^^ m) = 0)) ∧
    (∀ c, hex_byte_to_class ⟨v, m⟩ = some c →
      ∀ x, (class_member c x = true ↔ x < 256 ∧ x &&& m = v)) := by
  constructor
  · constructor
    · intro hnone hinv
      rw [hex_byte_to_class] at hnone
      simp only [hinv] at hnone
      simp at hnone
    · intro hne
      rw [hex_byte_to_class, if_pos]
      exact bne_iff_ne.mpr hne
  · intro c hc x
    have hinv : v &&& (255 ^^^ m) = 0 := by
      by_contra hne
      rw [hex_byte_to_class, if_pos (bne_iff_ne.mpr hne)] at hc
      cases hc
    rw [hex_byte_to_class, if_neg] at hc
    · rw [← Option.some.inj hc, class_from_bytes_mem, byteMaskCombinator_mem]
    · simp [hinv]

/-- Witness for C8 at the masked byte `value 0x08`, `mask 0xAA` and the
conforming byte `0x5D`. -/
theorem c8_expansion_fail_fast_witness :
    class_member (class_from_bytes (byteMaskCombinator 0x08 0xAA)) 0x5D = true ↔
      (0x5D : Nat) < 256 ∧ (0x5D : Nat) &&& 0xAA = 0x08 :=
  (c8_expansion_fail_fast 0x08 0xAA).2 _ rfl 0x5D

/-- C10: whenever `class_to_hex_byte` accepts a class, the returned masked
byte satisfies the construction invariant `value &&& !mask = 0`, so it is a
legal argument to `hex_byte_to_class`. -/
theorem c10_classification_invariant (c : List ClassBytesRange) (h : HexByte)
    (hc : class_to_hex_byte c = some h) : h.value &&& (255 ^^^ h.mask) = 0 := by
  cases c with
  | nil => cases hc
  | cons first rest =>
    rw [class_to_hex_byte_cons] at hc
    by_cases h1 : (((first :: rest).getLast (List.cons_ne_nil first rest)).stop &&& first.start
        != first.start) = true
    · rw [if_pos h1] at hc
      cases hc
    · rw [if_neg h1] at hc
      have heq : ((first :: rest).getLast (List.cons_ne_nil first rest)).stop &&& first.start
          = first.start :=
        bne_eq_false_iff_eq.mp (Bool.not_eq_true _ ▸ eq_false_of_ne_true h1)
      by_cases h2 : ((1 <<< count_ones
          (((first :: rest).getLast (List.cons_ne_nil first rest)).stop ^^^ first.start))
          != (first :: rest).foldl (fun acc r => acc + (r.stop - r.start) + 1) 0) = true
      · rw [if_pos h2] at hc
        cases hc
      · rw [if_neg h2] at hc
        rw [← Option.some.inj hc]
        rw [nat_not8_not8]
        exact nat_submask_and_xor heq

/-- Witness for C10 at the full byte class `[0, 255]`. -/
theorem c10_classification_invariant_witness :
    (0x00 : Nat) &&& (255 ^^^ 0x00) = 0 :=
  c10_classification_invariant [⟨0, 255⟩] ⟨0x00, 0x00⟩ (by decide)

/-- C7: `any_byte` holds exactly for class nodes whose first range spans the
full domain (`0..=255` for byte classes, code points `0..=char::MAX` for
Unicode classes); it is false for every other node kind, for empty classes,
and whenever the first range is partial. -/
theorem c7_any_byte_contract (h : Hir) :
    any_byte h = true ↔
      ((∃ r rs, h = Hir.classBytes (r :: rs) ∧ r.start = 0 ∧ r.stop = 255) ∨
       (∃ r rs, h = Hir.classUnicode (r :: rs) ∧ r.start = 0 ∧ r.stop = char_MAX)) := by
  cases h with
  | classBytes ranges =>
    cases ranges with
    | nil => simp [any_byte]
    | cons r rs =>
      simp only [any_byte, List.head?_cons, Bool.and_eq_true, beq_iff_eq]
      constructor
      · rintro ⟨h1, h2⟩
        exact Or.inl ⟨r, rs, rfl, h1, h2⟩
      · rintro (⟨r2, rs2, heq, h1, h2⟩ | ⟨r2, rs2, heq, h1, h2⟩)
        · obtain ⟨rfl, rfl⟩ : r = r2 ∧ rs = rs2 := by
            have := Hir.classBytes.inj heq
            exact ⟨(List.cons.inj this).1, (List.cons.inj this).2⟩
          exact ⟨h1, h2⟩
        · cases heq
  | classUnicode ranges =>
    cases ranges with
    | nil => simp [any_byte]
    | cons r rs =>
      simp only [any_byte, List.head?_cons, Bool.and_eq_true, beq_iff_eq]
      constructor
      · rintro ⟨h1, h2⟩
        exact Or.inr ⟨r, rs, rfl, h1, h2⟩
      · rintro (⟨r2, rs2, heq, h1, h2⟩ | ⟨r2, rs2, heq, h1, h2⟩)
        · cases heq
        · obtain ⟨rfl, rfl⟩ : r = r2 ∧ rs = rs2 := by
            have := Hir.classUnicode.inj heq
            exact ⟨(List.cons.inj this).1, (List.cons.inj this).2⟩
          exact ⟨h1, h2⟩
  | empty => simp [any_byte]
  | literal l => simp [any_byte]
  | look n => simp [any_byte]
  | repetition rmin rmax greedy sub => simp [any_byte]
  | cat items => simp [any_byte]
  | alternation items => simp [any_byte]

/-- Witness for C7 at the full byte class (the `??` wildcard). -/
theorem c7_any_byte_contract_witness :
    any_byte (Hir.classBytes [⟨0, 255⟩]) = true :=
  (c7_any_byte_contract _).mpr (Or.inl ⟨⟨0, 255⟩, [], rfl, rfl, rfl⟩)

/-- A gap-qualifying child makes `split_step` close the current fragment:
the fragment buffer is flushed through the `push` closure, the new gap is
recorded, and the buffer restarts empty. -/
theorem split_step_gap (st : SplitState) (item : Hir) (hgap : is_gap_child item = true) :
    ∃ rmin rmax greedy sub, item = Hir.repetition rmin rmax greedy sub ∧
      split_step st item = { split_push st st.prev_gap st.pattern_chunk with
        prev_gap := some (rmin, rmax.getD U32_MAX), pattern_chunk := [] } := by
  cases item with
  | repetition rmin rmax greedy sub =>
    refine ⟨rmin, rmax, greedy, sub, rfl, ?_⟩
    simp only [is_gap_child] at hgap
    rw [split_step]
    simp only [hgap, if_true]
  | empty => simp [is_gap_child] at hgap
  | literal l => simp [is_gap_child] at hgap
  | classBytes r => simp [is_gap_child] at hgap
  | classUnicode r => simp [is_gap_child] at hgap
  | look n => simp [is_gap_child] at hgap
  | cat l => simp [is_gap_child] at hgap
  | alternation l => simp [is_gap_child] at hgap

/-- A non-qualifying child is appended verbatim to the fragment buffer. -/
theorem split_step_no_gap (st : SplitState) (item : Hir) (hgap : is_gap_child item = false) :
    split_step st item = { st with pattern_chunk := st.pattern_chunk ++ [item] } := by
  cases item with
  | repetition rmin rmax greedy sub =>
    simp only [is_gap_child] at hgap
    rw [split_step]
    simp only [hgap]
    rfl
  | empty => rfl
  | literal l => rfl
  | classBytes r => rfl
  | classUnicode r => rfl
  | look n => rfl
  | cat l => rfl
  | alternation l => rfl

/-- Iterating `split_step` over gap-free children only grows the fragment
buffer. -/
theorem foldl_split_step_no_gap :
    ∀ (items : List Hir) (st : SplitState), (∀ x ∈ items, is_gap_child x = false) →
      items.foldl split_step st = { st with pattern_chunk := st.pattern_chunk ++ items } := by
  intro items
  induction items with
  | nil => intro st h; simp
  | cons x xs ih =>
    intro st h
    rw [List.foldl_cons, split_step_no_gap st x (h x (by simp)),
      ih _ (fun y hy => h y (by simp [hy]))]
    simp

/-- Appending a node through `pushHir` is a plain append unless it would be
glued onto a trailing literal. -/
theorem pushHir_append (acc : List Hir) (x : Hir)
    (h : ∀ a, acc.getLast? = some a → (is_lit a && is_lit x) = false) :
    pushHir acc x = acc ++ [x] := by
  rcases hl : acc.getLast? with _ | a
  · cases x <;> simp [pushHir, hl]
  · have hax := h a hl
    cases a <;> cases x <;> (try simp [pushHir, hl]) <;> simp [is_lit] at hax

/-- The accumulating fold inside `Hir.concat` is the identity on a child
list that satisfies the concatenation invariant. -/
theorem concat_fold_eq :
    ∀ (items acc : List Hir),
      (∀ x ∈ items, is_empty_hir x = false ∧ is_cat x = false) →
      chain_not_both_lits items = true →
      (∀ a, acc.getLast? = some a → ∀ b, items.head? = some b → (is_lit a && is_lit b) = false) →
      items.foldl concat_push acc = acc ++ items := by
  intro items
  induction items with
  | nil => intro acc hmem hchain hb; simp
  | cons x xs ih =>
    intro acc hmem hchain hb
    have hx := hmem x (by simp)
    have hstep : concat_push acc x = pushHir acc x := by
      cases x with
      | empty => simp [is_empty_hir] at hx
      | cat l => simp [is_cat] at hx
      | literal l => rfl
      | classBytes r => rfl
      | classUnicode r => rfl
      | look n => rfl
      | repetition rmin rmax greedy sub => rfl
      | alternation l => rfl
    rw [List.foldl_cons, hstep, pushHir_append acc x (fun a ha => hb a ha x rfl)]
    have hchain2 : chain_not_both_lits xs = true := by
      cases xs with
      | nil => rfl
      | cons y ys =>
        simp only [chain_not_both_lits, Bool.and_eq_true] at hchain
        exact hchain.2
    rw [ih (acc ++ [x]) (fun y hy => hmem y (by simp [hy])) hchain2 ?_]
    · simp
    · intro a ha b hbb
      have ha2 : x = a := by
        rw [List.getLast?_append] at ha
        simpa using ha
      subst ha2
      cases xs with
      | nil => cases hbb
      | cons y ys =>
        have hby : y = b := by simpa using hbb
        subst hby
        simp only [chain_not_both_lits, Bool.and_eq_true] at hchain
        have h1 := hchain.1
        simp only [Bool.not_eq_eq_eq_not, Bool.not_true] at h1
        exact h1

/-- On a child list satisfying the concatenation invariant, the smart
constructor `Hir.concat` rebuilds exactly the raw concatenation node. -/
theorem hir_concat_of_invariant (items : List Hir) (hinv : concat_invariant items = true) :
    Hir.concat items = Hir.cat items := by
  simp only [concat_invariant, Bool.and_eq_true, List.all_eq_true, decide_eq_true_eq,
    Bool.not_eq_eq_eq_not, Bool.not_true] at hinv
  obtain ⟨⟨hlen, hmem⟩, hchain⟩ := hinv
  rw [Hir.concat, concat_fold_eq items [] hmem hchain (fun a ha => by cases ha),
    List.nil_append]
  cases items with
  | nil => simp at hlen
  | cons a t =>
    cases t with
    | nil => simp at hlen
    | cons b rest => rfl

/-- A gap-free step preserves the heading/prev-gap relation of the loop:
once a gap was recorded, the heading is filled. -/
theorem split_step_Q (st : SplitState) (item : Hir)
    (hq : st.prev_gap ≠ none → st.heading ≠ none) :
    (split_step st item).prev_gap ≠ none → (split_step st item).heading ≠ none := by
  cases hg : is_gap_child item
  · rw [split_step_no_gap st item hg]
    exact hq
  · obtain ⟨rmin, rmax, greedy, sub, heq, hstep⟩ := split_step_gap st item hg
    rw [hstep]
    intro _
    rcases hpg : st.prev_gap with _ | g0
    · simp [split_push, hpg]
    · simp only [split_push, hpg]
      exact hq (by rw [hpg]; simp)

/-- The loop of `split_at_large_gaps` preserves the heading/prev-gap
relation. -/
theorem foldl_split_step_Q :
    ∀ (items : List Hir) (st : SplitState),
      (st.prev_gap ≠ none → st.heading ≠ none) →
      ((items.foldl split_step st).prev_gap ≠ none →
        (items.foldl split_step st).heading ≠ none) := by
  intro items
  induction items with
  | nil => intro st hq; exact hq
  | cons x xs ih =>
    intro st hq
    rw [List.foldl_cons]
    exact ih _ (split_step_Q st x hq)

/-- Once the heading is set and a gap is pending, no further step changes
the heading or clears the pending gap. -/
theorem split_step_R (st : SplitState) (item : Hir) (h : Hir)
    (hh : st.heading = some h) (hp : st.prev_gap ≠ none) :
    (split_step st item).heading = some h ∧ (split_step st item).prev_gap ≠ none := by
  cases hg : is_gap_child item
  · rw [split_step_no_gap st item hg]
    exact ⟨hh, hp⟩
  · obtain ⟨rmin, rmax, greedy, sub, heq, hstep⟩ := split_step_gap st item hg
    rw [hstep]
    rcases hpg : st.prev_gap with _ | g0
    · exact absurd hpg hp
    · constructor
      · simp only [split_push, hpg]
        exact hh
      · simp

/-- The loop preserves an already-set heading and a pending gap. -/
theorem foldl_split_step_R :
    ∀ (items : List Hir) (st : SplitState) (h : Hir),
      st.heading = some h → st.prev_gap ≠ none →
      ((items.foldl split_step st).heading = some h ∧
        (items.foldl split_step st).prev_gap ≠ none) := by
  intro items
  induction items with
  | nil => intro st h hh hp; exact ⟨hh, hp⟩
  | cons x xs ih =>
    intro st h hh hp
    rw [List.foldl_cons]
    obtain ⟨hh2, hp2⟩ := split_step_R st x h hh hp
    exact ih _ h hh2 hp2

/-- C3: the large-gap split example: a concatenation with two qualifying
gaps (one unbounded, one of width `THRESHOLD + 1`) splits into the leading
literal `01 02 03` and exactly the two trailing patterns
`{gap: [0, u32::MAX], hir: 05}` and `{gap: [10, THRESHOLD + 11], hir: 06 07}`. -/
theorem c3_large_gap_split :
    split_at_large_gaps (Hir.cat [
      Hir.literal [0x01, 0x02, 0x03],
      Hir.repetition 0 none false (Hir.classBytes [⟨0, 255⟩]),
      Hir.literal [0x05],
      Hir.repetition 10 (some (PATTERN_CHAINING_THRESHOLD + 11)) false
        (Hir.classBytes [⟨0, 255⟩]),
      Hir.literal [0x06, 0x07]]) =
    some (Hir.literal [0x01, 0x02, 0x03],
      [⟨(0, U32_MAX), Hir.literal [0x05]⟩,
       ⟨(10, PATTERN_CHAINING_THRESHOLD + 11), Hir.literal [0x06, 0x07]⟩]) := by
  rfl

/-- C4: a child closes the current fragment iff it is a non-greedy
full-wildcard repetition with `max.unwrap_or(u32::MAX) - min` strictly above
the threshold 200; in particular a gap of width exactly the threshold does
not split (boundary exclusive), and neither does a greedy gap of twice the
threshold. -/
theorem c4_gap_qualification :
    (∀ st item, ((split_step st item).pattern_chunk = st.pattern_chunk ++ [item] ↔
        is_gap_child item = false)) ∧
    split_at_large_gaps (Hir.cat [Hir.literal [0x01],
        Hir.repetition 0 (some PATTERN_CHAINING_THRESHOLD) false (Hir.classBytes [⟨0, 255⟩]),
        Hir.literal [0x02, 0x03]]) =
      some (Hir.cat [Hir.literal [0x01],
        Hir.repetition 0 (some PATTERN_CHAINING_THRESHOLD) false (Hir.classBytes [⟨0, 255⟩]),
        Hir.literal [0x02, 0x03]], []) ∧
    split_at_large_gaps (Hir.cat [Hir.literal [0x01],
        Hir.repetition 0 (some (2 * PATTERN_CHAINING_THRESHOLD)) true (Hir.classBytes [⟨0, 255⟩]),
        Hir.literal [0x02, 0x03]]) =
      some (Hir.cat [Hir.literal [0x01],
        Hir.repetition 0 (some (2 * PATTERN_CHAINING_THRESHOLD)) true (Hir.classBytes [⟨0, 255⟩]),
        Hir.literal [0x02, 0x03]], []) := by
  refine ⟨?_, by rfl, by rfl⟩
  intro st item
  constructor
  · intro happ
    cases hg : is_gap_child item
    · rfl
    · obtain ⟨rmin, rmax, greedy, sub, heq, hstep⟩ := split_step_gap st item hg
      rw [hstep] at happ
      exact absurd happ.symm (by simp)
  · intro hg
    rw [split_step_no_gap st item hg]

/-- Witness for C4: a literal child is appended to the fragment buffer. -/
theorem c4_gap_qualification_witness :
    (split_step ⟨none, [], none, []⟩ (Hir.literal [0x01])).pattern_chunk
      = [] ++ [Hir.literal [0x01]] :=
  (c4_gap_qualification.1 ⟨none, [], none, []⟩ (Hir.literal [0x01])).mpr rfl

/-- C5: `split_at_large_gaps` is the identity (no trailing patterns, leading
fragment structurally equal to the input) on every IR that is not a
concatenation, and on every concatenation none of whose children qualifies
as a gap; for a concatenation node the `regex_syntax` construction
invariant (which every Rust `Hir` value carries) is assumed. -/
theorem c5_no_split_identity (hir : Hir) (hinv : hir_invariant hir = true)
    (hng : no_gap_child hir = true) :
    split_at_large_gaps hir = some (hir, []) := by
  cases hir with
  | cat items =>
    have hng2 : ∀ x ∈ items, is_gap_child x = false := by
      simp only [no_gap_child, List.all_eq_true, Bool.not_eq_eq_eq_not, Bool.not_true] at hng
      exact hng
    simp only [split_at_large_gaps]
    rw [foldl_split_step_no_gap items _ hng2]
    simp only [split_push, List.nil_append]
    rw [hir_concat_of_invariant items hinv]
  | empty => rfl
  | literal l => rfl
  | classBytes r => rfl
  | classUnicode r => rfl
  | look n => rfl
  | repetition rmin rmax greedy sub => rfl
  | alternation l => rfl

/-- Witness for C5: a two-child concatenation (a literal and a partial byte
class) with no qualifying gap is returned unsplit. -/
theorem c5_no_split_identity_witness :
    split_at_large_gaps (Hir.cat [Hir.literal [0x01], Hir.classBytes [⟨0, 9⟩]]) =
      some (Hir.cat [Hir.literal [0x01], Hir.classBytes [⟨0, 9⟩]], []) :=
  c5_no_split_identity _ rfl rfl

/-- C6: `split_at_large_gaps` is total — the heading is always produced (the
final `unwrap` cannot panic) — and when the first child of the
concatenation is itself a qualifying gap, the leading fragment is the empty
concatenation `Hir.concat []`. -/
theorem c6_split_total (hir : Hir) :
    (∃ p, split_at_large_gaps hir = some p) ∧
    (∀ g rest, hir = Hir.cat (g :: rest) → is_gap_child g = true →
      ∃ tr, split_at_large_gaps hir = some (Hir.concat [], tr)) := by
  constructor
  · cases hir with
    | cat items =>
      simp only [split_at_large_gaps]
      have hQ := foldl_split_step_Q items ⟨none, [], none, []⟩ (fun hpn => absurd rfl hpn)
      rcases hpg : (items.foldl split_step ⟨none, [], none, []⟩).prev_gap with _ | g
      · simp only [hpg, split_push]
        exact ⟨_, rfl⟩
      · have hh := hQ (by rw [hpg]; simp)
        rcases hhd : (items.foldl split_step ⟨none, [], none, []⟩).heading with _ | h0
        · exact absurd hhd hh
        · simp only [hpg, split_push, hhd]
          exact ⟨_, rfl⟩
    | empty => exact ⟨_, rfl⟩
    | literal l => exact ⟨_, rfl⟩
    | classBytes r => exact ⟨_, rfl⟩
    | classUnicode r => exact ⟨_, rfl⟩
    | look n => exact ⟨_, rfl⟩
    | repetition rmin rmax greedy sub => exact ⟨_, rfl⟩
    | alternation l => exact ⟨_, rfl⟩
  · intro g rest heq hg
    subst heq
    simp only [split_at_large_gaps, List.foldl_cons]
    obtain ⟨rmin, rmax, greedy, sub, hitem, hstep⟩ := split_step_gap ⟨none, [], none, []⟩ g hg
    have hst1 : split_step ⟨none, [], none, []⟩ g =
        ⟨some (Hir.concat []), [], some (rmin, rmax.getD U32_MAX), []⟩ := by
      rw [hstep]
      rfl
    rw [hst1]
    obtain ⟨hh, hp⟩ := foldl_split_step_R rest
      ⟨some (Hir.concat []), [], some (rmin, rmax.getD U32_MAX), []⟩
      (Hir.concat []) rfl (by simp)
    rcases hpg : (rest.foldl split_step
        ⟨some (Hir.concat []), [], some (rmin, rmax.getD U32_MAX), []⟩).prev_gap with _ | g2
    · exact absurd hpg hp
    · simp only [hpg, split_push, hh]
      exact ⟨_, rfl⟩

/-- Witness for C6: a pattern starting with an unbounded non-greedy wildcard
gap gets the empty concatenation as its leading fragment. -/
theorem c6_split_total_witness :
    ∃ tr, split_at_large_gaps (Hir.cat [
      Hir.repetition 0 none false (Hir.classBytes [⟨0, 255⟩]),
      Hir.literal [0x05]]) = some (Hir.concat [], tr) :=
  (c6_split_total _).2 (Hir.repetition 0 none false (Hir.classBytes [⟨0, 255⟩]))
    [Hir.literal [0x05]] rfl rfl

/-- C9: classifying the single full byte range `[0, 255]` with
`class_to_hex_byte` returns `some { value := 0x00, mask := 0x00 }`. -/
theorem c9_wildcard_representable :
    class_to_hex_byte [⟨0, 255⟩] = some ⟨0x00, 0x00⟩ := by
  decide

/-- C2 (failing input): the canonical, sorted, non-empty class
`{[0,0], [2,3], [5,5]}` (concrete bytes `{0,2,3,5}`) is not of the form
`{b | b &&& mask = value}` for any masked byte, yet `class_to_hex_byte`
returns `some ⟨0x00, 0xFA⟩` instead of `none`: byte `2` belongs to the class
but `2 &&& 0xFA = 2 ≠ 0`, and expanding the returned masked byte gives the
different byte set `{0,1,4,5}`. -/
theorem c2_classification_accepts_unrepresentable_class :
    class_to_hex_byte [⟨0, 0⟩, ⟨2, 3⟩, ⟨5, 5⟩] = some ⟨0x00, 0xFA⟩ ∧
    class_member [⟨0, 0⟩, ⟨2, 3⟩, ⟨5, 5⟩] 2 = true ∧
    2 &&& 0xFA = 2 ∧
    (decide (2 &&& 0xFA = 0)) = false ∧
    hex_byte_to_class ⟨0x00, 0xFA⟩ = some [⟨0, 1⟩, ⟨4, 5⟩] := by
  refine ⟨by decide, by decide, by decide, by decide, by decide⟩

/-- The byte set `{0,2,3,5}` is genuinely unrepresentable: no masked byte
`⟨value, mask⟩` satisfying the construction invariant has exactly this set
of conforming bytes. Supporting lemma for the C2 analysis. -/
theorem unrepresentable_bytes_0_2_3_5 :
    ¬ ∃ value mask : Nat, value < 256 ∧ mask < 256 ∧ value &&& (255 ^^^ mask) = 0 ∧
      ∀ x, x < 256 → ((x &&& mask = value) ↔ class_member [⟨0, 0⟩, ⟨2, 3⟩, ⟨5, 5⟩] x = true) := by
  rintro ⟨value, mask, -, -, -, hiff⟩
  have hv : value = 0 := by
    have := (hiff 0 (by norm_num)).mpr (by decide)
    simpa [Nat.zero_and] using this.symm
  subst hv
  have h3 : 3 &&& mask = 0 := (hiff 3 (by norm_num)).mpr (by decide)
  have h1mem : class_member [(⟨0, 0⟩ : ClassBytesRange), ⟨2, 3⟩, ⟨5, 5⟩] 1 = false := by decide
  have h1 : 1 &&& mask = 0 := by
    have : 1 &&& 3 = 1 := by decide
    calc 1 &&& mask = (1 &&& 3) &&& mask := by rw [this]
    _ = 1 &&& (3 &&& mask) := Nat.and_assoc 1 3 mask
    _ = 0 := by rw [h3, Nat.and_zero]
  have := (hiff 1 (by norm_num)).mp h1
  rw [h1mem] at this
  exact Bool.false_ne_true this
